import Mathlib

/-!
# Verification of the xtest keyboard-simulator core (src/xtest.c)

Shallow embedding of the script interpreter and run controller of
`src/xtest.c`:

* `parse_special_token` embeds the C token scanner of the same name
  (xtest.c:232-327).  C strings are modelled as `List Char`; reading
  `text[idx]` on a NUL-terminated C string is modelled by `headC` on the
  suffix, with the NUL character `'\x00'` as the past-the-end default, and
  `strncmp(text, kw, strlen kw) == 0` by `startsWithList` (the scanned
  patterns contain no NUL, so the two agree on NUL-free script text).
* `parse_and_type` embeds the interpreter loop (xtest.c:344-430).  The
  externally set stop flag `g_stopRequested` (set when the UI sees F2
  between atomic units of work) is modelled by a poll oracle
  `o : Nat → Bool` consulted at every `getch`-drain point, together with
  the latch `SimState.cancelled`.  Key-injector calls and sleeps are
  recorded in an event trace; the unbounded `{messageN}` recursion of the
  C source is made total with an explicit nesting-depth fuel, `none`
  meaning the modelled depth was exceeded.
* `simulate_typing` embeds the run controller (xtest.c:435-520), with the
  controller's `add_log` boundary lines recorded as trace events.
-/

namespace XTestSim

/-! ## X11 KeySym constants used by the scanner's keyword table -/

def XK_space : Nat := 0x20

def XK_Return : Nat := 0xff0d

def XK_Left : Nat := 0xff51

def XK_Up : Nat := 0xff52

def XK_Right : Nat := 0xff53

def XK_Down : Nat := 0xff54

def XK_Shift_L : Nat := 0xffe1

def XK_Control_L : Nat := 0xffe3

def XK_Alt_L : Nat := 0xffe9

/-! ## Token scanner data model -/

/-- The C `TokenAction` out-parameter record (xtest.c:218-223). -/
structure TokenAction where
  sym : Nat
  holdMs : Nat
  expandBuf : List Char
  useExpand : Bool
deriving Repr, DecidableEq

/-- The all-zero `TokenAction` produced by `memset(&action, 0, ...)`
(xtest.c:369). -/
def TokenAction.zero : TokenAction :=
  { sym := 0, holdMs := 0, expandBuf := [], useExpand := false }

/-- `text[idx] >= '0' && text[idx] <= '9'` (xtest.c:241, 303). -/
def isDigitC (c : Char) : Bool := '0' ≤ c && c ≤ '9'

/-- Reading the head character of a C-string suffix: the NUL terminator
`'\x00'` when the suffix is empty. -/
def headC : List Char → Char
  | [] => '\x00'
  | c :: _ => c

/-- `strncmp(text, pat, pat.length) == 0` for a NUL-free pattern `pat`:
does `text` start with `pat`? -/
def startsWithList : List Char → List Char → Bool
  | [], _ => true
  | _ :: _, [] => false
  | p :: ps, c :: cs => p == c && startsWithList ps cs

/-- The digit-collecting loops of the scanner (xtest.c:241-243, 303-307):
collect at most `cap` leading decimal digits (the C buffers hold 31), and
return them together with the unconsumed remainder of the text. -/
def scanDigits : Nat → List Char → List Char × List Char
  | 0, s => ([], s)
  | _ + 1, [] => ([], [])
  | cap + 1, c :: s =>
    if isDigitC c then
      let r := scanDigits cap s
      (c :: r.1, r.2)
    else ([], c :: s)

/-- `atoi` on a buffer that holds only decimal digits (the only way the
scanner fills its buffers); `atoiNat [] = 0` as in C. -/
def atoiNat (ds : List Char) : Nat :=
  ds.foldl (fun a c => a * 10 + (c.toNat - 48)) 0

/-- `"message"` as scanned after the opening brace of `"{message"`. -/
def messageKw : List Char := ['m', 'e', 's', 's', 'a', 'g', 'e']

/-- The scanner's fixed keyword table (xtest.c:268-282), in source order. -/
def keywordTable : List (List Char × Nat) :=
  [ (['u', 'p'], XK_Up)
  , (['d', 'o', 'w', 'n'], XK_Down)
  , (['l', 'e', 'f', 't'], XK_Left)
  , (['r', 'i', 'g', 'h', 't'], XK_Right)
  , (['e', 'n', 't', 'e', 'r'], XK_Return)
  , (['s', 'h', 'i', 'f', 't'], XK_Shift_L)
  , (['c', 't', 'r', 'l'], XK_Control_L)
  , (['a', 'l', 't'], XK_Alt_L)
  , (['s', 'p', 'a', 'c', 'e'], XK_space) ]

/-- One iteration of the scanner's keyword loop body (xtest.c:284-323):
`none` means `strncmp(&text[1], cmd, c_len) != 0` and the loop continues;
`some` is a `return` from inside the loop (either a recognized token or a
hard `return 0` after a keyword match with a bad suffix). -/
def tryKeyword (text : List Char) (out : TokenAction) (cmd : List Char) (sym : Nat) :
    Option (Nat × TokenAction) :=
  if startsWithList cmd (text.drop 1) then
    let after := text.drop (1 + cmd.length)
    if headC after = '}' then
      some (1 + cmd.length + 1,
        { sym := sym, holdMs := 0, useExpand := false, expandBuf := out.expandBuf })
    else if headC after = ':' then
      let r := scanDigits 31 (after.drop 1)
      if headC r.2 = '}' then
        some (1 + cmd.length + 1 + r.1.length + 1,
          { sym := sym, holdMs := atoiNat r.1, useExpand := false,
            expandBuf := out.expandBuf })
      else
        some (0, out)
    else
      some (0, out)
  else
    none

/-- The scanner's keyword loop (xtest.c:284-324). -/
def keywordScan (text : List Char) (out : TokenAction) :
    List (List Char × Nat) → Nat × TokenAction
  | [] => (0, out)
  | (cmd, sym) :: tbl =>
    match tryKeyword text out cmd sym with
    | some r => r
    | none => keywordScan text out tbl

/-- The token scanner `parse_special_token` (xtest.c:232-327).  `table` is
the loaded message table (`g_messages` with `g_messageCount` entries); the
function returns the consumed length together with the final contents of
the out-parameter.  A spliced message line is truncated to the 2047
characters that fit `out->expandBuf` (xtest.c:257). -/
def parse_special_token (table : List (List Char)) (text : List Char) (out : TokenAction) :
    Nat × TokenAction :=
  match text with
  | [] => (0, out)
  | c :: t =>
    if c ≠ '{' then (0, out)
    else if startsWithList messageKw t then
      let r := scanDigits 31 (t.drop 7)
      if headC r.2 = '}' then
        let msgIndex := atoiNat r.1
        if msgIndex < 1 ∨ table.length < msgIndex then (0, out)
        else
          (8 + r.1.length + 1,
            { sym := 0, holdMs := 0, useExpand := true,
              expandBuf := (table.getD (msgIndex - 1) []).take 2047 })
      else (0, out)
    else keywordScan (c :: t) out keywordTable

/-- The out-of-range diagnostic of the scanner: `true` exactly when the
`add_log("WARN: {message%d} out of range ...")` call at xtest.c:250 fires
for this text. -/
def message_warned (table : List (List Char)) (text : List Char) : Bool :=
  match text with
  | [] => false
  | c :: t =>
    if c ≠ '{' then false
    else if startsWithList messageKw t then
      let r := scanDigits 31 (t.drop 7)
      if headC r.2 = '}' then
        decide (atoiNat r.1 < 1 ∨ table.length < atoiNat r.1)
      else false
    else false

/-! ## Interpreter and run controller -/

/-- Observable events of a run: key-injector edges, sleeps, literal
character dispatches, and the run controller's boundary log lines. -/
inductive Ev where
  | down (sym : Nat)
  | up (sym : Nat)
  | wait (ms : Nat)
  | char (c : Char)
  | skipChar (c : Char)
  | sleepingBefore (ms : Nat)
  | abortedBefore
  | loopBegin (l total : Nat)
  | loopInterrupted (l total : Nat)
  | loopDone (l total : Nat)
  | sleepingBetween (ms : Nat)
  | abortedBetween (l total : Nat)
  | allCompleted
  | stoppedByUser
deriving Repr, DecidableEq

/-- Run state: the `g_stopRequested` latch, the index of the next
cancellation poll (each `getch`-drain point consults the oracle once), and
the trace of events so far. -/
structure SimState where
  cancelled : Bool
  pollIdx : Nat
  events : List Ev
deriving Repr, DecidableEq

/-- One `getch`-drain point: the stop latch absorbs the oracle's answer
for this poll and can only grow (`false → true`). -/
def pollF2 (o : Nat → Bool) (st : SimState) : SimState :=
  { st with cancelled := st.cancelled || o st.pollIdx, pollIdx := st.pollIdx + 1 }

/-- Append one event to the trace. -/
def emit (e : Ev) (st : SimState) : SimState :=
  { st with events := st.events ++ [e] }

/-- The shared shape of the three timed waits (xtest.c:386-405, 446-465,
488-506): sleep in 50 ms slices, polling for F2 after every slice, until
the remaining time is gone or a stop is requested. -/
def sliceWait (o : Nat → Bool) (remain : Nat) (st : SimState) : SimState :=
  if remain = 0 ∨ st.cancelled then st
  else sliceWait o (remain - 50) (pollF2 o (emit (Ev.wait 50) st))
termination_by remain
decreasing_by
  rename_i h
  push_neg at h
  omega

/-- `pressKey` (xtest.c:111-117): quick press plus release with the two
30 ms settle sleeps. -/
def pressKey (sym : Nat) (st : SimState) : SimState :=
  { st with events := st.events ++ [Ev.down sym, Ev.wait 30, Ev.up sym, Ev.wait 30] }

/-- The `KeyHold` dispatch block of `parse_and_type` (xtest.c:380-409):
press down, hold in cancellable 50 ms slices, and release unconditionally,
followed by the 30 ms settle sleep. -/
def doHold (o : Nat → Bool) (sym ms : Nat) (st : SimState) : SimState :=
  emit (Ev.wait 30) (emit (Ev.up sym) (sliceWait o ms (emit (Ev.down sym) st)))

/-- `send_char` (xtest.c:176-184): resolve the character through the
(external) character-to-key mapper `mc`; an unmappable character is
logged and skipped with no key event, a mapped one is tapped. -/
def send_char (mc : Char → Option Nat) (c : Char) (st : SimState) : SimState :=
  match mc c with
  | none => emit (Ev.skipChar c) st
  | some ks => pressKey ks st

/-- The interpreter `parse_and_type` (xtest.c:344-430).  `fuel` bounds the
`{messageN}` splice nesting depth (the C source has no such bound; `none`
reports that the bound was exceeded).  Each loop iteration drains the
input queue once (`pollF2`), then either dispatches a recognized token and
advances by its consumed length, or dispatches the head character as a
literal (`Ev.char`, mirroring the "Sending char" log at xtest.c:418) and
advances by one. -/
def parse_and_type (o : Nat → Bool) (mc : Char → Option Nat) (table : List (List Char)) :
    Nat → List Char → SimState → Option SimState
  | fuel, text, st =>
    match text with
    | [] => some st
    | c :: rest =>
      if st.cancelled then some st
      else
        let st1 := pollF2 o st
        if st1.cancelled then some st1
        else
          let pr := parse_special_token table (c :: rest) TokenAction.zero
          if h : 0 < pr.1 then
            if pr.2.useExpand then
              if hf : fuel = 0 then none
              else
                (parse_and_type o mc table (fuel - 1) pr.2.expandBuf st1).bind
                  (fun st2 => parse_and_type o mc table fuel ((c :: rest).drop pr.1) st2)
            else
              parse_and_type o mc table fuel ((c :: rest).drop pr.1)
                (if 0 < pr.2.holdMs then doHold o pr.2.sym pr.2.holdMs st1
                 else pressKey pr.2.sym st1)
          else
            parse_and_type o mc table fuel rest
              (emit (Ev.wait 30) (send_char mc c (emit (Ev.char c) st1)))
termination_by fuel text _ => (fuel, text.length)
decreasing_by
  · exact Prod.Lex.left _ _ (by omega)
  · exact Prod.Lex.right _ (by simp; exact h)
  · exact Prod.Lex.right _ (by simp; exact h)
  · exact Prod.Lex.right _ (by simp)

/-- The iteration loop of `simulate_typing` (xtest.c:474-514), from loop
index `l` on (the C `for` variable), with the per-iteration begin/done/
interrupted log lines and the cancellable inter-loop delay. -/
def runLoops (o : Nat → Bool) (mc : Char → Option Nat) (table : List (List Char))
    (fuel : Nat) (text : List Char) (loopDelay : Nat) (loops : Nat) :
    Nat → SimState → Option SimState
  | l, st =>
    if loops ≤ l then some st
    else if st.cancelled then some st
    else
      (parse_and_type o mc table fuel text (emit (Ev.loopBegin (l + 1) loops) st)).bind
        fun stB =>
          if stB.cancelled then some (emit (Ev.loopInterrupted (l + 1) loops) stB)
          else
            let stC := emit (Ev.loopDone (l + 1) loops) stB
            if l < loops - 1 ∧ 0 < loopDelay then
              let stD := sliceWait o loopDelay (emit (Ev.sleepingBetween loopDelay) stC)
              if stD.cancelled then some (emit (Ev.abortedBetween (l + 1) loops) stD)
              else runLoops o mc table fuel text loopDelay loops (l + 1) stD
            else runLoops o mc table fuel text loopDelay loops (l + 1) stC
termination_by l _ => loops - l
decreasing_by
  all_goals omega

/-- The run controller `simulate_typing` (xtest.c:435-520): reset the stop
latch, run the cancellable start delay (aborting the whole run if it is
cancelled, before any iteration), run the loop, and close with the
terminal completed/stopped log line. -/
def simulate_typing (o : Nat → Bool) (mc : Char → Option Nat) (table : List (List Char))
    (fuel : Nat) (text : List Char) (loops startDelay loopDelay : Nat)
    (st : SimState) : Option SimState :=
  let st0 : SimState := { st with cancelled := false }
  if 0 < startDelay then
    let st1 := sliceWait o startDelay (emit (Ev.sleepingBefore startDelay) st0)
    if st1.cancelled then some (emit Ev.abortedBefore st1)
    else
      (runLoops o mc table fuel text loopDelay loops 0 st1).map
        fun st2 => emit (if st2.cancelled then Ev.stoppedByUser else Ev.allCompleted) st2
  else
    (runLoops o mc table fuel text loopDelay loops 0 st0).map
      fun st2 => emit (if st2.cancelled then Ev.stoppedByUser else Ev.allCompleted) st2

/-! ## Derived observations used by the claims -/

/-- The sequence of position advances the interpreter makes over a script:
the consumed length at a recognized directive, one character otherwise
(mirroring `i += consumed` versus `i++` in xtest.c:415, 420). -/
def advances (table : List (List Char)) : List Char → List Nat
  | [] => []
  | c :: rest =>
    let pr := parse_special_token table (c :: rest) TokenAction.zero
    if 0 < pr.1 then pr.1 :: advances table ((c :: rest).drop pr.1)
    else 1 :: advances table rest
termination_by text => text.length
decreasing_by
  · rename_i h
    simp
    exact h
  · simp

/-- The message texts spliced while walking a script (not recursing into
them): the `expandBuf` handed to `expand_and_parse` at xtest.c:376. -/
def splices (table : List (List Char)) : List Char → List (List Char)
  | [] => []
  | c :: rest =>
    let pr := parse_special_token table (c :: rest) TokenAction.zero
    if 0 < pr.1 then
      (if pr.2.useExpand then [pr.2.expandBuf] else []) ++
        splices table ((c :: rest).drop pr.1)
    else splices table rest
termination_by text => text.length
decreasing_by
  · rename_i h
    simp
    exact h
  · simp

/-- One splice step: `t` is one of the texts spliced while walking `s`. -/
def SpliceStep (table : List (List Char)) (t s : List Char) : Prop :=
  t ∈ splices table s

/-- The never-cancelling oracle (no F2 is ever pressed). -/
def noCancel : Nat → Bool := fun _ => false

/-- Count of literal character dispatches in a trace. -/
def charCount (evs : List Ev) : Nat :=
  evs.countP fun e => match e with | Ev.char _ => true | _ => false

/-- Count of inter-loop delay phases entered in a trace. -/
def betweenCount (evs : List Ev) : Nat :=
  evs.countP fun e => match e with | Ev.sleepingBetween _ => true | _ => false

/-- Count of iteration starts in a trace. -/
def loopBeginCount (evs : List Ev) : Nat :=
  evs.countP fun e => match e with | Ev.loopBegin _ _ => true | _ => false

/-! ## Scanner lemmas -/

theorem startsWithList_length {p s : List Char} (h : startsWithList p s = true) :
    p.length ≤ s.length := by
  induction p generalizing s with
  | nil => simp
  | cons a ps ih =>
    cases s with
    | nil => simp [startsWithList] at h
    | cons c cs =>
      simp only [startsWithList, Bool.and_eq_true, beq_iff_eq] at h
      simpa using ih h.2

theorem startsWithList_decomp {p s : List Char} (h : startsWithList p s = true) :
    s = p ++ s.drop p.length := by
  induction p generalizing s with
  | nil => simp
  | cons a ps ih =>
    cases s with
    | nil => simp [startsWithList] at h
    | cons c cs =>
      simp only [startsWithList, Bool.and_eq_true, beq_iff_eq] at h
      simpa [h.1] using ih h.2

theorem startsWithList_append (p r : List Char) : startsWithList p (p ++ r) = true := by
  induction p with
  | nil => rfl
  | cons a ps ih => simpa [startsWithList] using ih

theorem scanDigits_append (cap : Nat) (s : List Char) :
    (scanDigits cap s).1 ++ (scanDigits cap s).2 = s := by
  induction cap generalizing s with
  | zero => simp [scanDigits]
  | succ cap ih =>
    cases s with
    | nil => simp [scanDigits]
    | cons c cs =>
      by_cases hd : isDigitC c
      · simpa [scanDigits, hd] using ih cs
      · simp [scanDigits, hd]

theorem scanDigits_exact {ds r : List Char} (hds : ∀ c ∈ ds, isDigitC c = true)
    (hr : isDigitC (headC r) = false) (cap : Nat) :
    scanDigits cap (ds ++ r) = (ds.take cap, ds.drop cap ++ r) := by
  induction ds generalizing cap with
  | nil =>
    cases cap with
    | zero => simp [scanDigits]
    | succ cap =>
      cases r with
      | nil => simp [scanDigits]
      | cons c cs =>
        have hc : isDigitC c = false := by simpa [headC] using hr
        simp [scanDigits, hc]
  | cons d ds ih =>
    cases cap with
    | zero => simp [scanDigits]
    | succ cap =>
      have hd : isDigitC d = true := hds d (by simp)
      have hrec := ih (fun c hc => hds c (by simp [hc])) cap
      simp [scanDigits, hd, hrec]

theorem headC_ne_nil {l : List Char} {c : Char} (h : headC l = c)
    (hc : c ≠ '\x00') : 1 ≤ l.length := by
  cases l with
  | nil => exact absurd h.symm hc
  | cons a as => simp

theorem tryKeyword_le {text cmd : List Char} {out : TokenAction} {sym : Nat}
    {res : Nat × TokenAction} (htry : tryKeyword text out cmd sym = some res) :
    res.1 ≤ text.length := by
  simp only [tryKeyword] at htry
  split at htry
  case isTrue hsw =>
    split at htry
    case isTrue h1 =>
      obtain rfl := Option.some.inj htry
      have hne := headC_ne_nil h1 (by decide)
      rw [List.length_drop] at hne
      simp only []
      omega
    case isFalse h1 =>
      split at htry
      case isTrue h2 =>
        split at htry
        case isTrue h3 =>
          obtain rfl := Option.some.inj htry
          have hne := headC_ne_nil h2 (by decide)
          have hne3 := headC_ne_nil h3 (by decide)
          have hlen2 := congrArg List.length
            (scanDigits_append 31 ((text.drop (1 + cmd.length)).drop 1))
          rw [List.length_drop] at hne
          simp only [List.length_append, List.length_drop] at hlen2
          simp only []
          omega
        case isFalse h3 =>
          obtain rfl := Option.some.inj htry
          simp
      case isFalse h2 =>
        obtain rfl := Option.some.inj htry
        simp
  case isFalse hsw => exact absurd htry (by simp)

theorem keywordScan_le (text : List Char) (out : TokenAction)
    (tbl : List (List Char × Nat)) : (keywordScan text out tbl).1 ≤ text.length := by
  induction tbl with
  | nil => simp [keywordScan]
  | cons e tbl ih =>
    obtain ⟨cmd, sym⟩ := e
    rcases htry : tryKeyword text out cmd sym with _ | res
    · simpa [keywordScan, htry] using ih
    · simpa [keywordScan, htry] using tryKeyword_le htry

theorem parse_special_token_le (table : List (List Char)) (text : List Char)
    (out : TokenAction) : (parse_special_token table text out).1 ≤ text.length := by
  cases text with
  | nil => simp [parse_special_token]
  | cons c t =>
    simp only [parse_special_token]
    split
    · simp
    · split
      case isFalse hm => exact keywordScan_le (c :: t) out keywordTable
      case isTrue hm =>
        split
        case isFalse h1 => simp
        case isTrue h1 =>
          split
          case isTrue h2 => simp
          case isFalse h2 =>
            have hne := headC_ne_nil h1 (by decide)
            have hm7 : 7 ≤ t.length := by
              simpa [messageKw] using startsWithList_length hm
            have hlen2 := congrArg List.length (scanDigits_append 31 (t.drop 7))
            simp only [List.length_append, List.length_drop] at hlen2
            simp only [List.length_cons]
            simp
            omega

/-! ## Zero-consumption leaves the out-parameter unmodified -/

theorem tryKeyword_zero {text cmd : List Char} {out : TokenAction} {sym : Nat}
    {res : Nat × TokenAction} (htry : tryKeyword text out cmd sym = some res)
    (h0 : res.1 = 0) : res.2 = out := by
  simp only [tryKeyword] at htry
  split at htry
  case isTrue hsw =>
    split at htry
    case isTrue h1 =>
      obtain rfl := Option.some.inj htry
      simp at h0
    case isFalse h1 =>
      split at htry
      case isTrue h2 =>
        split at htry
        case isTrue h3 =>
          obtain rfl := Option.some.inj htry
          simp at h0
        case isFalse h3 =>
          obtain rfl := Option.some.inj htry
          rfl
      case isFalse h2 =>
        obtain rfl := Option.some.inj htry
        rfl
  case isFalse hsw => exact absurd htry (by simp)

theorem keywordScan_zero (text : List Char) (out : TokenAction)
    (tbl : List (List Char × Nat)) (h0 : (keywordScan text out tbl).1 = 0) :
    (keywordScan text out tbl).2 = out := by
  induction tbl with
  | nil => simp [keywordScan]
  | cons e tbl ih =>
    obtain ⟨cmd, sym⟩ := e
    rcases htry : tryKeyword text out cmd sym with _ | res
    · simp only [keywordScan, htry] at h0 ⊢
      exact ih h0
    · simp only [keywordScan, htry] at h0 ⊢
      exact tryKeyword_zero htry h0

/-- Claim C10: whenever the scanner returns `consumed == 0` (not a
directive), the caller-supplied `TokenAction` out-record is left entirely
unmodified; the scanner writes the output fields only on a parse that
returns `consumed > 0`. -/
theorem c10_not_directive_frame :
    ∀ (table : List (List Char)) (text : List Char) (out : TokenAction),
      (parse_special_token table text out).1 = 0 →
      (parse_special_token table text out).2 = out := by
  intro table text out h0
  cases text with
  | nil => simp [parse_special_token]
  | cons c t =>
    by_cases hc : c ≠ '{'
    · simp [parse_special_token, hc]
    · by_cases hm : startsWithList messageKw t = true
      · by_cases h1 : headC (scanDigits 31 (t.drop 7)).2 = '}'
        · by_cases h2 : atoiNat (scanDigits 31 (t.drop 7)).1 = 0 ∨
              table.length < atoiNat (scanDigits 31 (t.drop 7)).1
          · simp [parse_special_token, hc, hm, h1, h2]
          · simp [parse_special_token, hc, hm, h1, h2] at h0
        · simp [parse_special_token, hc, hm, h1]
      · simp only [parse_special_token, hc, if_false, Bool.not_eq_true] at h0 ⊢
        simp only [hm, Bool.false_eq_true, if_false] at h0 ⊢
        exact keywordScan_zero (c :: t) out keywordTable h0

/-- Claim C10 witness: at the unrecognized token `\x7bxyz\x7d` the scanner
returns `consumed = 0` and hands back the (non-zero) out-record unchanged. -/
theorem c10_not_directive_frame_witness :
    (parse_special_token [] ['\x7b', 'x', 'y', 'z', '\x7d']
        { sym := 7, holdMs := 9, expandBuf := ['q'], useExpand := true }).1 = 0 ∧
      (parse_special_token [] ['\x7b', 'x', 'y', 'z', '\x7d']
          { sym := 7, holdMs := 9, expandBuf := ['q'], useExpand := true }).2 =
        { sym := 7, holdMs := 9, expandBuf := ['q'], useExpand := true } :=
  ⟨by decide,
    c10_not_directive_frame [] ['\x7b', 'x', 'y', 'z', '\x7d']
      { sym := 7, holdMs := 9, expandBuf := ['q'], useExpand := true } (by decide)⟩

/-! ## The advance sequence partitions the script -/

theorem advances_spec (table : List (List Char)) :
    ∀ (n : Nat) (s : List Char), s.length ≤ n →
      (advances table s).sum = s.length ∧ ∀ a ∈ advances table s, 0 < a := by
  intro n
  induction n with
  | zero =>
    intro s hs
    obtain rfl : s = [] := List.eq_nil_of_length_eq_zero (by omega)
    simp [advances]
  | succ n ih =>
    intro s hs
    cases s with
    | nil => simp [advances]
    | cons c rest =>
      simp only [advances]
      by_cases hpr : 0 < (parse_special_token table (c :: rest) TokenAction.zero).1
      · have hle := parse_special_token_le table (c :: rest) TokenAction.zero
        have hdrop :
            ((c :: rest).drop
              (parse_special_token table (c :: rest) TokenAction.zero).1).length ≤ n := by
          simp only [List.length_drop, List.length_cons] at *
          omega
        obtain ⟨ihsum, ihpos⟩ := ih _ hdrop
        refine ⟨?_, ?_⟩
        · simp only [hpr, if_true, List.sum_cons, ihsum]
          simp only [List.length_drop, List.length_cons] at *
          omega
        · intro a ha
          simp only [hpr, if_true, List.mem_cons] at ha
          rcases ha with rfl | ha
          · exact hpr
          · exact ihpos a ha
      · have hrest : rest.length ≤ n := by
          simp only [List.length_cons] at hs
          omega
        obtain ⟨ihsum, ihpos⟩ := ih rest hrest
        refine ⟨?_, ?_⟩
        · simp [hpr, ihsum]
          omega
        · intro a ha
          simp only [hpr, if_false, List.mem_cons] at ha
          rcases ha with rfl | ha
          · exact Nat.one_pos
          · exact ihpos a ha

/-- Claim C1: scanning a script position by position partitions it
exactly: every step advances by the directive's `consumed > 0` or by
exactly one character for a literal, every advance is positive (no
position visited twice, none skipped), and the advances sum to the length
of the script — the round-trip reassembly of consumed lengths. -/
theorem c1_scan_partition (table : List (List Char)) (s : List Char) :
    (advances table s).sum = s.length ∧ ∀ a ∈ advances table s, 0 < a :=
  advances_spec table s.length s le_rfl

/-! ## Keyword directives: exact match and suffix requirements -/

/-- Claim C2: a fixed keyword directive is accepted only when the keyword
is immediately followed by the closing brace (KeyTap) or a colon (KeyHold
path); a keyword that is a prefix of the text but not followed by one of
the two yields `consumed = 0` — in particular scanning the token text
for keyword `upward` (`up` followed by `ward`) returns `consumed = 0`
rather than matching `up`. -/
theorem c2_keyword_suffix_required :
    (∀ (cmd : List Char) (sym : Nat) (table : List (List Char)) (rest : List Char)
        (out : TokenAction), (cmd, sym) ∈ keywordTable →
        headC rest ≠ '}' → headC rest ≠ ':' →
        (parse_special_token table ('{' :: (cmd ++ rest)) out).1 = 0) ∧
      ∀ (table : List (List Char)) (out : TokenAction),
        (parse_special_token table ['{', 'u', 'p', 'w', 'a', 'r', 'd', '}'] out).1 = 0 := by
  constructor
  · intro cmd sym table rest out hmem h1 h2
    fin_cases hmem <;>
      simp [parse_special_token, keywordScan, tryKeyword, startsWithList, messageKw,
        keywordTable, h1, h2]
  · intro table out
    simp [parse_special_token, keywordScan, tryKeyword, startsWithList, messageKw,
      keywordTable, headC]

/-- Claim C2 witness: keyword `up` followed by `w` (from the token text of
`upward`) is rejected with `consumed = 0`. -/
theorem c2_keyword_suffix_required_witness :
    (['u', 'p'], XK_Up) ∈ keywordTable ∧ headC ['w'] ≠ '}' ∧ headC ['w'] ≠ ':' ∧
      (parse_special_token [] ('{' :: (['u', 'p'] ++ ['w'])) TokenAction.zero).1 = 0 :=
  ⟨by decide, by decide, by decide,
    c2_keyword_suffix_required.1 ['u', 'p'] XK_Up [] ['w'] TokenAction.zero
      (by decide) (by decide) (by decide)⟩

/-- Claim C9: for every fixed keyword, the token consisting of the
keyword, a colon and an immediate closing brace (zero digits) is accepted
as a directive consuming the full token length (`cmd.length + 3` covers
the opening brace, keyword, colon and closing brace) with hold duration
`atoi("") = 0`, and the interpreter dispatches it as a quick
press-and-release (`pressKey`), not a hold and not a literal fallback. -/
theorem c9_empty_hold_duration :
    (∀ (cmd : List Char) (sym : Nat) (table : List (List Char)) (rest : List Char)
        (out : TokenAction), (cmd, sym) ∈ keywordTable →
        parse_special_token table ('{' :: (cmd ++ ':' :: '}' :: rest)) out
          = (cmd.length + 3,
              { sym := sym, holdMs := 0, useExpand := false,
                expandBuf := out.expandBuf })) ∧
      ∀ (cmd : List Char) (sym : Nat) (o : Nat → Bool) (mc : Char → Option Nat)
        (table : List (List Char)) (rest : List Char) (fuel : Nat) (st : SimState),
        (cmd, sym) ∈ keywordTable → st.cancelled = false →
        (pollF2 o st).cancelled = false →
        parse_and_type o mc table fuel ('{' :: (cmd ++ ':' :: '}' :: rest)) st
          = parse_and_type o mc table fuel rest (pressKey sym (pollF2 o st)) := by
  have hparse : ∀ (cmd : List Char) (sym : Nat) (table : List (List Char))
      (rest : List Char) (out : TokenAction), (cmd, sym) ∈ keywordTable →
      parse_special_token table ('{' :: (cmd ++ ':' :: '}' :: rest)) out
        = (cmd.length + 3,
            { sym := sym, holdMs := 0, useExpand := false,
              expandBuf := out.expandBuf }) := by
    intro cmd sym table rest out hmem
    fin_cases hmem <;>
      simp +decide [parse_special_token, keywordScan, tryKeyword, startsWithList,
        messageKw, keywordTable, headC, scanDigits, isDigitC, atoiNat]
  refine ⟨hparse, ?_⟩
  intro cmd sym o mc table rest fuel st hmem hst hpoll
  have hdrop : ('{' :: (cmd ++ ':' :: '}' :: rest)).drop (cmd.length + 3) = rest := by
    have hsplit : '{' :: (cmd ++ ':' :: '}' :: rest)
        = (('{' :: cmd) ++ [':', '}']) ++ rest := by simp
    have hlen : (('{' :: cmd) ++ [':', '}']).length = cmd.length + 3 := by simp
    rw [hsplit, ← hlen, List.drop_left]
  have hpos : 0 < cmd.length + 3 := by omega
  have hst2 : ¬st.cancelled = true := by simp [hst]
  have hpoll2 : ¬(pollF2 o st).cancelled = true := by simp [hpoll]
  simp only [parse_and_type, hst2, hpoll2,
    hparse cmd sym table rest TokenAction.zero hmem, hdrop, hpos]
  simp

/-- Claim C9 witness: the token of keyword `up` with a colon directly
followed by the closing brace parses as a zero-duration hold and is
dispatched as a quick press-and-release. -/
theorem c9_empty_hold_duration_witness :
    (['u', 'p'], XK_Up) ∈ keywordTable ∧
      parse_special_token [] ('{' :: (['u', 'p'] ++ ':' :: '}' :: [])) TokenAction.zero
        = (['u', 'p'].length + 3,
            { sym := XK_Up, holdMs := 0, useExpand := false,
              expandBuf := TokenAction.zero.expandBuf }) ∧
      parse_and_type noCancel (fun _ => none) [] 3
          ('{' :: (['u', 'p'] ++ ':' :: '}' :: [])) ⟨false, 0, []⟩
        = parse_and_type noCancel (fun _ => none) [] 3 []
            (pressKey XK_Up (pollF2 noCancel ⟨false, 0, []⟩)) :=
  ⟨by decide,
    c9_empty_hold_duration.1 ['u', 'p'] XK_Up [] [] TokenAction.zero (by decide),
    c9_empty_hold_duration.2 ['u', 'p'] XK_Up noCancel (fun _ => none) [] [] 3
      ⟨false, 0, []⟩ (by decide) rfl (by decide)⟩

/-! ## Out-of-range message directives -/

theorem isDigitC_ne_rbrace {c : Char} (h : isDigitC c = true) : c ≠ '}' := by
  intro hc
  rw [hc] at h
  exact absurd h (by decide)

theorem isDigitC_ne_lbrace {c : Char} (h : isDigitC c = true) : c ≠ '{' := by
  intro hc
  rw [hc] at h
  exact absurd h (by decide)

theorem parse_not_lbrace {table : List (List Char)} {c : Char} {t : List Char}
    {out : TokenAction} (hc : c ≠ '{') :
    parse_special_token table (c :: t) out = (0, out) := by
  simp [parse_special_token, hc]

/-- Full characterization of the scanner on a `\x7bmessage<digits>\x7d` token:
with at most 31 digits the range check decides between a splice and a
rejection; with more digits the capped `numBuf` scan stops at a digit, the
immediate-closing-brace check fails, and the token is rejected. -/
theorem parse_message_digits {table : List (List Char)} {ds rest : List Char}
    {out : TokenAction} (hds : ∀ c ∈ ds, isDigitC c = true) :
    parse_special_token table ('{' :: (messageKw ++ (ds ++ '}' :: rest))) out
      = if ds.length ≤ 31 then
          (if atoiNat ds < 1 ∨ table.length < atoiNat ds then (0, out)
           else (8 + ds.length + 1,
              { sym := 0, holdMs := 0, useExpand := true,
                expandBuf := (table.getD (atoiNat ds - 1) []).take 2047 }))
        else (0, out) := by
  have hsw : startsWithList messageKw (messageKw ++ (ds ++ '}' :: rest)) = true :=
    startsWithList_append _ _
  have h7 : (messageKw ++ (ds ++ '}' :: rest)).drop 7 = ds ++ '}' :: rest := by
    rw [show (7 : Nat) = messageKw.length from rfl, List.drop_left]
  have hnotdig : isDigitC (headC ('}' :: rest)) = false := by
    show isDigitC '}' = false
    decide
  have hscan := scanDigits_exact hds hnotdig 31
  simp only [parse_special_token, h7, hscan, hsw, if_true, reduceCtorEq, ite_false]
  by_cases h31 : ds.length ≤ 31
  · have htake : ds.take 31 = ds := List.take_of_length_le h31
    have hdrop : ds.drop 31 = [] := List.drop_eq_nil_of_le h31
    simp [htake, hdrop, h31, headC]
  · have hne : ds.drop 31 ≠ [] := by
      intro hnil
      have := congrArg List.length hnil
      simp at this
      omega
    obtain ⟨d, ds2, hcons⟩ := List.exists_cons_of_ne_nil hne
    have hd : isDigitC d = true := by
      have hmem : d ∈ ds := by
        have : d ∈ ds.drop 31 := by rw [hcons]; simp
        exact List.mem_of_mem_drop this
      exact hds d hmem
    have hhead : headC (ds.drop 31 ++ '}' :: rest) = d := by
      rw [hcons]
      rfl
    simp [h31, hhead, isDigitC_ne_rbrace hd]

/-- The out-of-range warning on a `\x7bmessage<digits>\x7d` token fires exactly
when the digit run fits the 31-character buffer and the value fails the
range check. -/
theorem message_warned_digits {table : List (List Char)} {ds rest : List Char}
    (hds : ∀ c ∈ ds, isDigitC c = true) :
    message_warned table ('{' :: (messageKw ++ (ds ++ '}' :: rest)))
      = if ds.length ≤ 31 then
          decide (atoiNat ds < 1 ∨ table.length < atoiNat ds)
        else false := by
  have hsw : startsWithList messageKw (messageKw ++ (ds ++ '}' :: rest)) = true :=
    startsWithList_append _ _
  have h7 : (messageKw ++ (ds ++ '}' :: rest)).drop 7 = ds ++ '}' :: rest := by
    rw [show (7 : Nat) = messageKw.length from rfl, List.drop_left]
  have hnotdig : isDigitC (headC ('}' :: rest)) = false := by
    show isDigitC '}' = false
    decide
  have hscan := scanDigits_exact hds hnotdig 31
  simp only [message_warned, h7, hscan, hsw, if_true, reduceCtorEq, ite_false]
  by_cases h31 : ds.length ≤ 31
  · have htake : ds.take 31 = ds := List.take_of_length_le h31
    have hdrop : ds.drop 31 = [] := List.drop_eq_nil_of_le h31
    simp [htake, hdrop, h31, headC]
  · have hne : ds.drop 31 ≠ [] := by
      intro hnil
      have := congrArg List.length hnil
      simp at this
      omega
    obtain ⟨d, ds2, hcons⟩ := List.exists_cons_of_ne_nil hne
    have hd : isDigitC d = true := by
      have hmem : d ∈ ds := by
        have : d ∈ ds.drop 31 := by rw [hcons]; simp
        exact List.mem_of_mem_drop this
      exact hds d hmem
    have hhead : headC (ds.drop 31 ++ '}' :: rest) = d := by
      rw [hcons]
      rfl
    simp [h31, hhead, isDigitC_ne_rbrace hd]

/-- Literal stretches: over characters that are not an opening brace the
interpreter advances one position at a time. -/
theorem advances_literal_run (table : List (List Char)) :
    ∀ (u rest : List Char), (∀ c ∈ u, c ≠ '{') →
      advances table (u ++ rest) = List.replicate u.length 1 ++ advances table rest := by
  intro u
  induction u with
  | nil => simp
  | cons c u ih =>
    intro rest hu
    have hc : c ≠ '{' := hu c (by simp)
    have hstep : advances table (c :: (u ++ rest)) = 1 :: advances table (u ++ rest) := by
      simp only [advances, parse_not_lbrace hc]
      simp
    rw [List.cons_append, hstep, ih rest (fun c2 hc2 => hu c2 (by simp [hc2]))]
    simp [List.replicate_succ]

/-- Claim C3 counterexample: a `\x7bmessage<digits>\x7d` token with a 32-digit
value, out of range for the empty table, is rejected with `consumed = 0`
but does NOT log the out-of-range warning (the 31-character `numBuf` scan
stops at a digit, so the immediate `\x7d` check fails before the range
check), contradicting the claim that every out-of-range
`\x7bmessage<digits>\x7d` logs a warning. -/
theorem c3_message_out_of_range_counterexample :
    (∀ c ∈ List.replicate 32 '1', isDigitC c = true) ∧
      List.length ([] : List (List Char)) < atoiNat (List.replicate 32 '1') ∧
      (parse_special_token [] ('{' :: (messageKw ++ (List.replicate 32 '1' ++ ['}'])))
          TokenAction.zero).1 = 0 ∧
      message_warned [] ('{' :: (messageKw ++ (List.replicate 32 '1' ++ ['}']))) = false := by
  decide

/-- Claim C3 (amended): for every `\x7bmessage<digits>\x7d` token whose numeric
value is outside `1 ≤ n ≤ |table|`, the scanner returns `consumed = 0`
(not a directive, so no `MessageSplice` occurs and the out-record is
untouched); the out-of-range warning is logged provided the digit run fits
the scanner's 31-character numeric buffer (a longer run is likewise
rejected, but without the warning); and the interpreter then types the
whole token text literally, character by character, starting with the
opening brace — one advance per character. -/
theorem c3_message_out_of_range :
    ∀ (table : List (List Char)) (ds rest : List Char) (out : TokenAction),
      (∀ c ∈ ds, isDigitC c = true) →
      (atoiNat ds < 1 ∨ table.length < atoiNat ds) →
      parse_special_token table ('{' :: (messageKw ++ (ds ++ '}' :: rest))) out = (0, out)
        ∧ (ds.length ≤ 31 →
            message_warned table ('{' :: (messageKw ++ (ds ++ '}' :: rest))) = true)
        ∧ advances table ('{' :: (messageKw ++ (ds ++ '}' :: rest)))
            = List.replicate (9 + ds.length) 1 ++ advances table rest := by
  intro table ds rest out hds hrange
  have hrange2 : atoiNat ds = 0 ∨ table.length < atoiNat ds := by
    rcases hrange with h | h
    · exact Or.inl (by omega)
    · exact Or.inr h
  have hparse := @parse_message_digits table ds rest out hds
  refine ⟨?_, ?_, ?_⟩
  · rw [hparse]
    by_cases h31 : ds.length ≤ 31
    · simp [h31, hrange2]
    · simp [h31]
  · intro h31
    rw [message_warned_digits hds]
    simp [h31, hrange2]
  · have hzero : parse_special_token table ('{' :: (messageKw ++ (ds ++ '}' :: rest)))
        TokenAction.zero = (0, TokenAction.zero) := by
      rw [parse_message_digits hds]
      by_cases h31 : ds.length ≤ 31
      · simp [h31, hrange2]
      · simp [h31]
    have hstep : advances table ('{' :: (messageKw ++ (ds ++ '}' :: rest)))
        = 1 :: advances table (messageKw ++ (ds ++ '}' :: rest)) := by
      simp only [advances, hzero]
      simp
    have hassoc : messageKw ++ (ds ++ '}' :: rest)
        = (messageKw ++ (ds ++ ['}'])) ++ rest := by simp
    have hrun : advances table ((messageKw ++ (ds ++ ['}'])) ++ rest)
        = List.replicate (messageKw ++ (ds ++ ['}'])).length 1 ++ advances table rest := by
      refine advances_literal_run table _ rest ?_
      intro c hc
      simp only [List.mem_append, List.mem_singleton] at hc
      rcases hc with hc | hc | rfl
      · simp only [messageKw, List.mem_cons, List.not_mem_nil, or_false] at hc
        rcases hc with rfl | rfl | rfl | rfl | rfl | rfl | rfl <;> decide
      · exact isDigitC_ne_lbrace (hds c hc)
      · decide
    rw [hstep, hassoc, hrun]
    have hlen : (messageKw ++ (ds ++ ['}'])).length = 8 + ds.length := by
      simp [messageKw]
      omega
    rw [hlen]
    have : (9 + ds.length) = (8 + ds.length) + 1 := by omega
    rw [this, List.replicate_succ]
    rfl

/-- Claim C3 witness: `\x7bmessage5\x7d` against a table with no entries is
rejected with the warning logged and is typed as ten literal characters. -/
theorem c3_message_out_of_range_witness :
    (∀ c ∈ ['5'], isDigitC c = true) ∧
      (atoiNat ['5'] < 1 ∨ List.length ([] : List (List Char)) < atoiNat ['5']) ∧
      (parse_special_token [] ('{' :: (messageKw ++ (['5'] ++ '}' :: []))) TokenAction.zero
          = (0, TokenAction.zero)
        ∧ (List.length ['5'] ≤ 31 →
            message_warned [] ('{' :: (messageKw ++ (['5'] ++ '}' :: []))) = true)
        ∧ advances [] ('{' :: (messageKw ++ (['5'] ++ '}' :: [])))
            = List.replicate (9 + List.length ['5']) 1 ++ advances [] []) :=
  ⟨by decide, by decide,
    c3_message_out_of_range [] ['5'] [] TokenAction.zero (by decide) (by decide)⟩

/-! ## Timed waits and the hold dispatch -/

theorem sliceWait_events (o : Nat → Bool) :
    ∀ (remain : Nat) (st : SimState),
      ∃ ws, (sliceWait o remain st).events = st.events ++ ws
        ∧ ∀ e ∈ ws, ∃ m, e = Ev.wait m := by
  intro remain
  induction remain using Nat.strong_induction_on with
  | _ remain ih =>
    intro st
    rw [sliceWait]
    split
    · exact ⟨[], by simp, by simp⟩
    · rename_i hcond
      have hlt : remain - 50 < remain := by
        push_neg at hcond
        omega
      obtain ⟨ws, hev, hws⟩ := ih (remain - 50) hlt (pollF2 o (emit (Ev.wait 50) st))
      refine ⟨Ev.wait 50 :: ws, ?_, ?_⟩
      · rw [hev]
        simp [pollF2, emit]
      · intro e he
        rcases List.mem_cons.mp he with rfl | he
        · exact ⟨50, rfl⟩
        · exact hws e he

theorem sliceWait_stopped {o : Nat → Bool} {remain : Nat} {st : SimState}
    (h : st.cancelled = true) : sliceWait o remain st = st := by
  rw [sliceWait]
  simp [h]

theorem parse_and_type_stopped (o : Nat → Bool) (mc : Char → Option Nat)
    (table : List (List Char)) (fuel : Nat) (text : List Char) (st : SimState)
    (h : st.cancelled = true) : parse_and_type o mc table fuel text st = some st := by
  cases text with
  | nil => simp [parse_and_type]
  | cons c t => simp [parse_and_type, h]

/-- Claim C4: every `KeyHold` dispatch issues exactly one press-down, then
only waits, then exactly one press-up followed by the settle sleep — in
that order, for every cancellation oracle and hold duration, so the
release happens even when cancellation fires at any point during the
hold; and when cancellation was observed during the hold, the interpreter
processes nothing further (any continuation of `parse_and_type` from the
post-hold state returns it unchanged). -/
theorem c4_hold_always_releases :
    ∀ (o : Nat → Bool) (sym ms : Nat) (st : SimState),
      (∃ ws, (doHold o sym ms st).events
          = st.events ++ Ev.down sym :: (ws ++ [Ev.up sym, Ev.wait 30])
        ∧ ∀ e ∈ ws, ∃ m, e = Ev.wait m) ∧
      ∀ (mc : Char → Option Nat) (table : List (List Char)) (fuel : Nat)
        (text : List Char),
        (doHold o sym ms st).cancelled = true →
        parse_and_type o mc table fuel text (doHold o sym ms st)
          = some (doHold o sym ms st) := by
  intro o sym ms st
  constructor
  · obtain ⟨ws, hev, hws⟩ := sliceWait_events o ms (emit (Ev.down sym) st)
    refine ⟨ws, ?_, hws⟩
    simp only [emit] at hev
    simp only [doHold, emit, hev]
    simp
  · intro mc table fuel text hcanc
    exact parse_and_type_stopped o mc table fuel text _ hcanc

/-- Claim C4 witness: a 500 ms hold of the Up key under an oracle that
requests cancellation at the very first poll still ends in a release, and
the interpreter then stops. -/
theorem c4_hold_always_releases_witness :
    (∃ ws, (doHold (fun _ => true) XK_Up 500 ⟨false, 0, []⟩).events
        = ([] : List Ev) ++ Ev.down XK_Up :: (ws ++ [Ev.up XK_Up, Ev.wait 30])
      ∧ ∀ e ∈ ws, ∃ m, e = Ev.wait m) ∧
      parse_and_type (fun _ => true) (fun _ => none) [] 3 ['a']
          (doHold (fun _ => true) XK_Up 500 ⟨false, 0, []⟩)
        = some (doHold (fun _ => true) XK_Up 500 ⟨false, 0, []⟩) :=
  ⟨(c4_hold_always_releases (fun _ => true) XK_Up 500 ⟨false, 0, []⟩).1,
    (c4_hold_always_releases (fun _ => true) XK_Up 500 ⟨false, 0, []⟩).2
      (fun _ => none) [] 3 ['a']
      (by simp [doHold, sliceWait, pollF2, emit])⟩

/-! ## The cancellation latch -/

theorem pollF2_mono {o : Nat → Bool} {st : SimState} (h : st.cancelled = true) :
    (pollF2 o st).cancelled = true := by
  simp [pollF2, h]

theorem doHold_mono {o : Nat → Bool} {sym ms : Nat} {st : SimState}
    (h : st.cancelled = true) : (doHold o sym ms st).cancelled = true := by
  have hw : sliceWait o ms (emit (Ev.down sym) st) = emit (Ev.down sym) st :=
    sliceWait_stopped (by simp [emit, h])
  simp only [doHold, hw]
  simp [emit, h]

theorem runLoops_mono {o : Nat → Bool} {mc : Char → Option Nat}
    {table : List (List Char)} {fuel : Nat} {text : List Char}
    {loopDelay loops l : Nat} {st st2 : SimState}
    (hrun : runLoops o mc table fuel text loopDelay loops l st = some st2)
    (h : st.cancelled = true) : st2.cancelled = true := by
  by_cases hl : loops ≤ l
  · rw [runLoops, if_pos hl] at hrun
    cases hrun
    exact h
  · rw [runLoops, if_neg hl, if_pos h] at hrun
    cases hrun
    exact h

/-- Claim C5: a run request always begins un-cancelled — `simulate_typing`
behaves identically whether or not a stale cancellation is latched in the
incoming state, because it resets the latch first — and the core never
clears the latch once set: the poll, the sliced waits, the hold dispatch,
the interpreter and the loop runner all preserve `cancelled = true`. -/
theorem c5_cancel_reset_and_latch :
    (∀ (o : Nat → Bool) (mc : Char → Option Nat) (table : List (List Char))
        (fuel : Nat) (text : List Char) (loops startDelay loopDelay : Nat)
        (st : SimState),
        simulate_typing o mc table fuel text loops startDelay loopDelay st
          = simulate_typing o mc table fuel text loops startDelay loopDelay
              { st with cancelled := false }) ∧
      (∀ (o : Nat → Bool) (st : SimState), st.cancelled = true →
        (pollF2 o st).cancelled = true) ∧
      (∀ (o : Nat → Bool) (remain : Nat) (st : SimState), st.cancelled = true →
        (sliceWait o remain st).cancelled = true) ∧
      (∀ (o : Nat → Bool) (sym ms : Nat) (st : SimState), st.cancelled = true →
        (doHold o sym ms st).cancelled = true) ∧
      (∀ (o : Nat → Bool) (mc : Char → Option Nat) (table : List (List Char))
        (fuel : Nat) (text : List Char) (st st2 : SimState),
        parse_and_type o mc table fuel text st = some st2 → st.cancelled = true →
        st2.cancelled = true) ∧
      ∀ (o : Nat → Bool) (mc : Char → Option Nat) (table : List (List Char))
        (fuel : Nat) (text : List Char) (loopDelay loops l : Nat) (st st2 : SimState),
        runLoops o mc table fuel text loopDelay loops l st = some st2 →
        st.cancelled = true → st2.cancelled = true := by
  refine ⟨?_, ?_, ?_, ?_, ?_, ?_⟩
  · intro o mc table fuel text loops startDelay loopDelay st
    rfl
  · intro o st h
    exact pollF2_mono h
  · intro o remain st h
    rw [sliceWait_stopped h]
    exact h
  · intro o sym ms st h
    exact doHold_mono h
  · intro o mc table fuel text st st2 hp h
    rw [parse_and_type_stopped o mc table fuel text st h] at hp
    cases hp
    exact h
  · intro o mc table fuel text loopDelay loops l st st2 hrun h
    exact runLoops_mono hrun h

/-- Claim C5 witness: the latch facts instantiated at a concrete cancelled
state, and the reset equation at a stale-cancelled state. -/
theorem c5_cancel_reset_and_latch_witness :
    simulate_typing noCancel (fun _ => none) [] 1 ['a'] 1 0 0 ⟨true, 4, []⟩
        = simulate_typing noCancel (fun _ => none) [] 1 ['a'] 1 0 0
            { SimState.mk true 4 [] with cancelled := false } ∧
      (pollF2 noCancel ⟨true, 0, []⟩).cancelled = true ∧
      (sliceWait noCancel 100 ⟨true, 0, []⟩).cancelled = true ∧
      (doHold noCancel XK_Up 100 ⟨true, 0, []⟩).cancelled = true ∧
      SimState.cancelled ⟨true, 0, []⟩ = true :=
  ⟨(c5_cancel_reset_and_latch.1 noCancel (fun _ => none) [] 1 ['a'] 1 0 0 ⟨true, 4, []⟩),
    c5_cancel_reset_and_latch.2.1 noCancel ⟨true, 0, []⟩ rfl,
    c5_cancel_reset_and_latch.2.2.1 noCancel 100 ⟨true, 0, []⟩ rfl,
    c5_cancel_reset_and_latch.2.2.2.1 noCancel XK_Up 100 ⟨true, 0, []⟩ rfl,
    c5_cancel_reset_and_latch.2.2.2.2.1 noCancel (fun _ => none) [] 0 []
      ⟨true, 0, []⟩ ⟨true, 0, []⟩ (by simp [parse_and_type]) rfl⟩

/-! ## Cancellation observed during a delay phase -/

/-- Claim C6: cancellation observed during a delay phase stops the run
before any further interpreter invocation.  (1) If the start delay is
cancelled, the run ends at the aborted-before log line: the whole trace
after the incoming state is the delay log, wait slices only, and the
abort line — no iteration starts and no key event is dispatched.  (2) If
the inter-loop delay after iteration `l + 1` is cancelled, the loop
runner returns right there with the aborted-between log line carrying the
iteration index, so iterations `l + 2 .. loops` never run.  (3) With the
latch set after the loop, the controller's terminal line is the
stopped-by-user log, distinguishing cancellation from completion. -/
theorem c6_cancel_in_delay :
    (∀ (o : Nat → Bool) (mc : Char → Option Nat) (table : List (List Char))
        (fuel : Nat) (text : List Char) (loops startDelay loopDelay : Nat)
        (st : SimState),
        0 < startDelay →
        (sliceWait o startDelay
            (emit (Ev.sleepingBefore startDelay) { st with cancelled := false })).cancelled
          = true →
        simulate_typing o mc table fuel text loops startDelay loopDelay st
            = some (emit Ev.abortedBefore
                (sliceWait o startDelay
                  (emit (Ev.sleepingBefore startDelay) { st with cancelled := false })))
          ∧ ∃ ws, (emit Ev.abortedBefore
                (sliceWait o startDelay
                  (emit (Ev.sleepingBefore startDelay)
                    { st with cancelled := false }))).events
              = st.events ++ Ev.sleepingBefore startDelay :: (ws ++ [Ev.abortedBefore])
            ∧ ∀ e ∈ ws, ∃ m, e = Ev.wait m) ∧
      (∀ (o : Nat → Bool) (mc : Char → Option Nat) (table : List (List Char))
        (fuel : Nat) (text : List Char) (loopDelay loops l : Nat) (st stB : SimState),
        l < loops → st.cancelled = false →
        parse_and_type o mc table fuel text (emit (Ev.loopBegin (l + 1) loops) st)
          = some stB →
        stB.cancelled = false →
        l < loops - 1 → 0 < loopDelay →
        (sliceWait o loopDelay
            (emit (Ev.sleepingBetween loopDelay)
              (emit (Ev.loopDone (l + 1) loops) stB))).cancelled = true →
        runLoops o mc table fuel text loopDelay loops l st
          = some (emit (Ev.abortedBetween (l + 1) loops)
              (sliceWait o loopDelay
                (emit (Ev.sleepingBetween loopDelay)
                  (emit (Ev.loopDone (l + 1) loops) stB))))) ∧
      ∀ (o : Nat → Bool) (mc : Char → Option Nat) (table : List (List Char))
        (fuel : Nat) (text : List Char) (loops loopDelay : Nat) (st st2 : SimState),
        runLoops o mc table fuel text loopDelay loops 0 { st with cancelled := false }
          = some st2 →
        st2.cancelled = true →
        simulate_typing o mc table fuel text loops 0 loopDelay st
          = some (emit Ev.stoppedByUser st2) := by
  refine ⟨?_, ?_, ?_⟩
  · intro o mc table fuel text loops startDelay loopDelay st hsd hcanc
    constructor
    · simp only [simulate_typing]
      rw [if_pos hsd, if_pos hcanc]
    · obtain ⟨ws, hev, hws⟩ := sliceWait_events o startDelay
        (emit (Ev.sleepingBefore startDelay) { st with cancelled := false })
      refine ⟨ws, ?_, hws⟩
      simp only [emit] at hev ⊢
      rw [hev]
      simp
  · intro o mc table fuel text loopDelay loops l st stB hl hst hp hstB hl1 hld hcanc
    have h1 : ¬loops ≤ l := by omega
    have h2 : ¬st.cancelled = true := by simp [hst]
    have h3 : ¬stB.cancelled = true := by simp [hstB]
    rw [runLoops, if_neg h1, if_neg h2, hp]
    simp only [Option.some_bind, h3, Bool.false_eq_true, if_false, hl1, hld, and_self,
      if_true, hcanc, ite_true, ite_false]
  · intro o mc table fuel text loops loopDelay st st2 hrun hcanc
    simp only [simulate_typing, Nat.lt_irrefl, if_false, hrun]
    simp [hcanc]

/-- Claim C6 witness: `loops = 3`, `loopDelay = 100`, script `a`, and an
oracle cancelling at the poll inside the delay after iteration 1: the
loop runner stops with the aborted-between line at index 1, never
starting iteration 2 or 3. -/
theorem c6_cancel_in_delay_witness :
    runLoops (fun n => n == 1) (fun c => some c.toNat) [] 5 ['a'] 100 3 0 ⟨false, 0, []⟩
      = some (emit (Ev.abortedBetween 1 3)
          (sliceWait (fun n => n == 1) 100
            (emit (Ev.sleepingBetween 100)
              (emit (Ev.loopDone 1 3)
                ⟨false, 1, [Ev.loopBegin 1 3, Ev.char 'a', Ev.down 97, Ev.wait 30,
                  Ev.up 97, Ev.wait 30, Ev.wait 30]⟩)))) := by
  have hp : parse_and_type (fun n => n == 1) (fun c => some c.toNat) [] 5 ['a']
      (emit (Ev.loopBegin 1 3) ⟨false, 0, []⟩)
      = some ⟨false, 1, [Ev.loopBegin 1 3, Ev.char 'a', Ev.down 97, Ev.wait 30,
          Ev.up 97, Ev.wait 30, Ev.wait 30]⟩ := by
    have hps : parse_special_token [] ['a'] TokenAction.zero = (0, TokenAction.zero) := by
      decide
    simp [parse_and_type, hps, pollF2, emit, send_char, pressKey]
  exact c6_cancel_in_delay.2.1 (fun n => n == 1) (fun c => some c.toNat) [] 5 ['a']
    100 3 0 ⟨false, 0, []⟩ _ (by decide) rfl hp rfl (by decide) (by decide)
    (by simp [sliceWait, pollF2, emit])

/-! ## Directive-free scripts: literal dispatch counts -/

theorem sliceWait_noCancel :
    ∀ (remain : Nat) (st : SimState), st.cancelled = false →
      (sliceWait noCancel remain st).cancelled = false := by
  intro remain
  induction remain using Nat.strong_induction_on with
  | _ remain ih =>
    intro st hst
    rw [sliceWait]
    split
    · exact hst
    · rename_i hcond
      have hlt : remain - 50 < remain := by
        push_neg at hcond
        omega
      exact ih (remain - 50) hlt _ (by simp [pollF2, emit, noCancel, hst])

theorem emit_cancelled (e : Ev) (st : SimState) : (emit e st).cancelled = st.cancelled :=
  rfl

theorem emit_events (e : Ev) (st : SimState) : (emit e st).events = st.events ++ [e] :=
  rfl

theorem pollF2_events (o : Nat → Bool) (st : SimState) : (pollF2 o st).events = st.events :=
  rfl

theorem charCount_append (a b : List Ev) :
    charCount (a ++ b) = charCount a + charCount b := by
  simp [charCount, List.countP_append]

theorem betweenCount_append (a b : List Ev) :
    betweenCount (a ++ b) = betweenCount a + betweenCount b := by
  simp [betweenCount, List.countP_append]

theorem charCount_cons_char (c : Char) (l : List Ev) :
    charCount (Ev.char c :: l) = charCount l + 1 := by
  simp [charCount, List.countP_cons]

theorem charCount_cons_wait (m : Nat) (l : List Ev) :
    charCount (Ev.wait m :: l) = charCount l := by
  simp [charCount, List.countP_cons]

theorem betweenCount_cons_char (c : Char) (l : List Ev) :
    betweenCount (Ev.char c :: l) = betweenCount l := by
  simp [betweenCount, List.countP_cons]

theorem betweenCount_cons_wait (m : Nat) (l : List Ev) :
    betweenCount (Ev.wait m :: l) = betweenCount l := by
  simp [betweenCount, List.countP_cons]

theorem waits_no_char_no_between {ws : List Ev} (h : ∀ e ∈ ws, ∃ m, e = Ev.wait m) :
    charCount ws = 0 ∧ betweenCount ws = 0 := by
  constructor
  · rw [charCount, List.countP_eq_zero]
    intro e he
    obtain ⟨m, rfl⟩ := h e he
    simp
  · rw [betweenCount, List.countP_eq_zero]
    intro e he
    obtain ⟨m, rfl⟩ := h e he
    simp

theorem send_char_shape (mc : Char → Option Nat) (c : Char) (st : SimState) :
    (send_char mc c st).cancelled = st.cancelled ∧
      (send_char mc c st).pollIdx = st.pollIdx ∧
      ∃ mids, (send_char mc c st).events = st.events ++ mids
        ∧ charCount mids = 0 ∧ betweenCount mids = 0 := by
  cases hmc : mc c with
  | none =>
    exact ⟨by simp [send_char, hmc, emit], by simp [send_char, hmc, emit],
      [Ev.skipChar c], by simp [send_char, hmc, emit],
      by simp [charCount, List.countP_cons], by simp [betweenCount, List.countP_cons]⟩
  | some ks =>
    exact ⟨by simp [send_char, hmc, pressKey], by simp [send_char, hmc, pressKey],
      [Ev.down ks, Ev.wait 30, Ev.up ks, Ev.wait 30],
      by simp [send_char, hmc, pressKey],
      by simp [charCount, List.countP_cons], by simp [betweenCount, List.countP_cons]⟩

theorem parse_and_type_literal (mc : Char → Option Nat) (table : List (List Char))
    (fuel : Nat) :
    ∀ (s : List Char),
      (∀ i < s.length, (parse_special_token table (s.drop i) TokenAction.zero).1 = 0) →
      ∀ st : SimState, st.cancelled = false →
        ∃ st2, parse_and_type noCancel mc table fuel s st = some st2
          ∧ st2.cancelled = false
          ∧ ∃ evs, st2.events = st.events ++ evs
              ∧ charCount evs = s.length ∧ betweenCount evs = 0 := by
  intro s
  induction s with
  | nil =>
    intro _ st hst
    exact ⟨st, by simp [parse_and_type], hst, [], by simp,
      by simp [charCount], by simp [betweenCount]⟩
  | cons c rest ih =>
    intro hnd st hst
    have h0 : (parse_special_token table (c :: rest) TokenAction.zero).1 = 0 := by
      simpa using hnd 0 (by simp)
    have hst1 : (pollF2 noCancel st).cancelled = false := by
      simp [pollF2, noCancel, hst]
    have hndr : ∀ i < rest.length,
        (parse_special_token table (rest.drop i) TokenAction.zero).1 = 0 := by
      intro i hi
      simpa using hnd (i + 1) (by simp; omega)
    obtain ⟨hsc, hsp, mids, hsev, hscc, hsbc⟩ :=
      send_char_shape mc c (emit (Ev.char c) (pollF2 noCancel st))
    have hst2 : (emit (Ev.wait 30)
        (send_char mc c (emit (Ev.char c) (pollF2 noCancel st)))).cancelled = false := by
      rw [emit_cancelled, hsc, emit_cancelled]
      exact hst1
    obtain ⟨st2, hrun, hc2, evs, hev, hcc, hbc⟩ := ih hndr _ hst2
    refine ⟨st2, ?_, hc2, Ev.char c :: (mids ++ (Ev.wait 30 :: evs)), ?_, ?_, ?_⟩
    · rw [parse_and_type.eq_2]
      have hh0 : ¬0 < (parse_special_token table (c :: rest) TokenAction.zero).1 := by
        omega
      simp only [hst, Bool.false_eq_true, if_false, hst1, hh0, dite_false]
      exact hrun
    · rw [hev, emit_events, hsev, emit_events, pollF2_events]
      simp
    · rw [charCount_cons_char, charCount_append, charCount_cons_wait, hscc, hcc]
      simp
    · rw [betweenCount_cons_char, betweenCount_append, betweenCount_cons_wait, hsbc, hbc]

theorem charCount_cons_other {e : Ev} (h : ∀ c : Char, e ≠ Ev.char c) (l : List Ev) :
    charCount (e :: l) = charCount l := by
  rw [charCount, List.countP_cons, charCount]
  cases e <;> simp_all

theorem betweenCount_cons_other {e : Ev} (h : ∀ m : Nat, e ≠ Ev.sleepingBetween m)
    (l : List Ev) : betweenCount (e :: l) = betweenCount l := by
  rw [betweenCount, List.countP_cons, betweenCount]
  cases e <;> simp_all

theorem betweenCount_cons_between (m : Nat) (l : List Ev) :
    betweenCount (Ev.sleepingBetween m :: l) = betweenCount l + 1 := by
  simp [betweenCount, List.countP_cons]

theorem runLoops_literal (mc : Char → Option Nat) (table : List (List Char))
    (fuel : Nat) (s : List Char) (ld loops : Nat)
    (hnd : ∀ i < s.length, (parse_special_token table (s.drop i) TokenAction.zero).1 = 0) :
    ∀ (k l : Nat) (st : SimState), loops - l ≤ k → st.cancelled = false →
      ∃ st2, runLoops noCancel mc table fuel s ld loops l st = some st2
        ∧ st2.cancelled = false
        ∧ ∃ evs, st2.events = st.events ++ evs
            ∧ charCount evs = (loops - l) * s.length
            ∧ betweenCount evs = if 0 < ld then loops - 1 - l else 0 := by
  intro k
  induction k with
  | zero =>
    intro l st hk hst
    have hl : loops ≤ l := by omega
    refine ⟨st, ?_, hst, [], by simp, ?_, ?_⟩
    · rw [runLoops, if_pos hl]
    · have h0 : loops - l = 0 := by omega
      simp [charCount, h0]
    · have h0 : loops - 1 - l = 0 := by omega
      simp [betweenCount, h0]
  | succ k ih =>
    intro l st hk hst
    by_cases hl : loops ≤ l
    · refine ⟨st, ?_, hst, [], by simp, ?_, ?_⟩
      · rw [runLoops, if_pos hl]
      · have h0 : loops - l = 0 := by omega
        simp [charCount, h0]
      · have h0 : loops - 1 - l = 0 := by omega
        simp [betweenCount, h0]
    · have hstA : (emit (Ev.loopBegin (l + 1) loops) st).cancelled = false := by
        rw [emit_cancelled]
        exact hst
      obtain ⟨stB, hpt, hcB, evs1, hev1, hcc1, hbc1⟩ :=
        parse_and_type_literal mc table fuel s hnd _ hstA
      have hB : ¬stB.cancelled = true := by simp [hcB]
      by_cases hcond : l < loops - 1 ∧ 0 < ld
      · have hcD : (sliceWait noCancel ld (emit (Ev.sleepingBetween ld)
            (emit (Ev.loopDone (l + 1) loops) stB))).cancelled = false :=
          sliceWait_noCancel ld _ (by rw [emit_cancelled, emit_cancelled]; exact hcB)
        have hD : ¬(sliceWait noCancel ld (emit (Ev.sleepingBetween ld)
            (emit (Ev.loopDone (l + 1) loops) stB))).cancelled = true := by simp [hcD]
        obtain ⟨ws, hwev, hws⟩ := sliceWait_events noCancel ld
          (emit (Ev.sleepingBetween ld) (emit (Ev.loopDone (l + 1) loops) stB))
        obtain ⟨hwc, hwb⟩ := waits_no_char_no_between hws
        obtain ⟨st2, hrec, hc2, evs2, hev2, hcc2, hbc2⟩ := ih (l + 1) _ (by omega) hcD
        refine ⟨st2, ?_, hc2,
          Ev.loopBegin (l + 1) loops :: (evs1 ++ Ev.loopDone (l + 1) loops ::
            Ev.sleepingBetween ld :: (ws ++ evs2)), ?_, ?_, ?_⟩
        · rw [runLoops, if_neg hl, if_neg (by simp [hst]), hpt]
          simp only [Option.some_bind, hB, if_false, hcond.1, hcond.2, and_self,
            if_true, hD, ite_false, ite_true]
          exact hrec
        · rw [hev2, hwev, emit_events, emit_events, hev1, emit_events]
          simp
        · have hx : loops - l = (loops - (l + 1)) + 1 := by omega
          rw [charCount_cons_other (by simp), charCount_append,
            charCount_cons_other (by simp), charCount_cons_other (by simp),
            charCount_append, hcc1, hwc, hcc2, hx, Nat.succ_mul]
          omega
        · rw [betweenCount_cons_other (by simp), betweenCount_append,
            betweenCount_cons_other (by simp), betweenCount_cons_between,
            betweenCount_append, hbc1, hwb, hbc2]
          rw [if_pos hcond.2, if_pos hcond.2]
          omega
      · obtain ⟨st2, hrec, hc2, evs2, hev2, hcc2, hbc2⟩ :=
          ih (l + 1) (emit (Ev.loopDone (l + 1) loops) stB) (by omega)
            (by rw [emit_cancelled]; exact hcB)
        refine ⟨st2, ?_, hc2,
          Ev.loopBegin (l + 1) loops :: (evs1 ++ Ev.loopDone (l + 1) loops :: evs2),
          ?_, ?_, ?_⟩
        · rw [runLoops, if_neg hl, if_neg (by simp [hst]), hpt]
          simp only [Option.some_bind, hB, if_false, hcond, ite_false, ite_true]
          exact hrec
        · rw [hev2, emit_events, hev1, emit_events]
          simp
        · have hx : loops - l = (loops - (l + 1)) + 1 := by omega
          rw [charCount_cons_other (by simp), charCount_append,
            charCount_cons_other (by simp), hcc1, hcc2, hx, Nat.succ_mul]
          omega
        · rw [betweenCount_cons_other (by simp), betweenCount_append,
            betweenCount_cons_other (by simp), hbc1, hbc2]
          rcases Decidable.not_and_iff_or_not.mp hcond with hc | hc
          · have hle : l + 1 ≥ loops - 1 := by omega
            by_cases hld : 0 < ld
            · rw [if_pos hld, if_pos hld]
              omega
            · rw [if_neg hld, if_neg hld]
          · rw [if_neg hc, if_neg hc]

/-- Claim C7: for every script in which the scanner recognizes no
directive at any position, an un-cancelled run with `loopCount = loops`
dispatches exactly `loops * |script|` literal character actions (an
unmappable character is skipped with no key event — `send_char` only logs
it — but still produces its one literal dispatch), and the inter-loop
delay phase is entered exactly `loops - 1` times when `loopDelayMs > 0`
and never after the last iteration. -/
theorem c7_literal_dispatch_count :
    (∀ (mc : Char → Option Nat) (table : List (List Char)) (fuel : Nat)
        (s : List Char) (loops startDelay loopDelay : Nat) (st : SimState),
        (∀ i < s.length, (parse_special_token table (s.drop i) TokenAction.zero).1 = 0) →
        ∃ st2, simulate_typing noCancel mc table fuel s loops startDelay loopDelay st
            = some st2
          ∧ ∃ evs, st2.events = st.events ++ evs
              ∧ charCount evs = loops * s.length
              ∧ betweenCount evs = if 0 < loopDelay then loops - 1 else 0) ∧
      ∀ (mc : Char → Option Nat) (c : Char) (st : SimState), mc c = none →
        send_char mc c st = emit (Ev.skipChar c) st := by
  constructor
  · intro mc table fuel s loops sd ld st hnd
    have hrl := runLoops_literal mc table fuel s ld loops hnd loops 0
    by_cases hsd : 0 < sd
    · have hc1 : (sliceWait noCancel sd
          (emit (Ev.sleepingBefore sd) { st with cancelled := false })).cancelled
            = false :=
        sliceWait_noCancel sd _ (by rw [emit_cancelled])
      obtain ⟨ws, hwev, hws⟩ := sliceWait_events noCancel sd
        (emit (Ev.sleepingBefore sd) { st with cancelled := false })
      obtain ⟨hwc, hwb⟩ := waits_no_char_no_between hws
      obtain ⟨st2, hrun, hc2, evs, hev, hcc, hbc⟩ := hrl _ (by omega) hc1
      refine ⟨emit Ev.allCompleted st2,  ?_,
        Ev.sleepingBefore sd :: (ws ++ (evs ++ [Ev.allCompleted])), ?_, ?_, ?_⟩
      · simp only [simulate_typing, hsd, if_true, hc1, Bool.false_eq_true, if_false,
          hrun]
        simp [hc2]
      · rw [emit_events, hev, hwev, emit_events]
        simp
      · rw [charCount_cons_other (by simp), charCount_append, charCount_append,
          hwc, hcc, charCount_cons_other (by simp)]
        simp [charCount]
      · rw [betweenCount_cons_other (by simp), betweenCount_append,
          betweenCount_append, hwb, hbc, betweenCount_cons_other (by simp)]
        simp [betweenCount]
    · obtain ⟨st2, hrun, hc2, evs, hev, hcc, hbc⟩ := hrl _ (by omega)
        (show ({ st with cancelled := false } : SimState).cancelled = false from rfl)
      refine ⟨emit Ev.allCompleted st2, ?_, evs ++ [Ev.allCompleted], ?_, ?_, ?_⟩
      · simp only [simulate_typing, hsd, if_false, hrun]
        simp [hc2]
      · rw [emit_events, hev]
        simp
      · rw [charCount_append, hcc, charCount_cons_other (by simp)]
        simp [charCount]
      · rw [betweenCount_append, hbc, betweenCount_cons_other (by simp)]
        simp [betweenCount]
  · intro mc c st hmc
    simp [send_char, hmc]

/-- Claim C7 witness: the two-character script `ab`, two loops, 50 ms
inter-loop delay, a mapper that maps nothing: four literal dispatches and
one delay phase. -/
theorem c7_literal_dispatch_count_witness :
    (∃ st2, simulate_typing noCancel (fun _ => none) [] 1 ['a', 'b'] 2 0 50 ⟨false, 0, []⟩
        = some st2
      ∧ ∃ evs, st2.events = SimState.events ⟨false, 0, []⟩ ++ evs
          ∧ charCount evs = 2 * List.length ['a', 'b']
          ∧ betweenCount evs = if 0 < 50 then 2 - 1 else 0) ∧
      send_char (fun _ => none) 'a' ⟨false, 0, []⟩ = emit (Ev.skipChar 'a') ⟨false, 0, []⟩ :=
  ⟨c7_literal_dispatch_count.1 (fun _ => none) [] 1 ['a', 'b'] 2 0 50 ⟨false, 0, []⟩
      (by decide),
    c7_literal_dispatch_count.2 (fun _ => none) 'a' ⟨false, 0, []⟩ rfl⟩

/-! ## Splice recursion: termination and unboundedness -/

/-- A message-table line whose text splices itself: entry 1 is the very
token `\x7bmessage1\x7d`. -/
def selfMsg : List Char := ['{', 'm', 'e', 's', 's', 'a', 'g', 'e', '1', '}']

theorem parse_and_type_mono (o : Nat → Bool) (mc : Char → Option Nat)
    (table : List (List Char)) :
    ∀ (fuel : Nat) (n : Nat) (text : List Char) (fuel2 : Nat) (st st2 : SimState),
      text.length ≤ n → fuel ≤ fuel2 →
      parse_and_type o mc table fuel text st = some st2 →
      parse_and_type o mc table fuel2 text st = some st2 := by
  intro fuel
  induction fuel using Nat.strong_induction_on with
  | _ fuel ihf =>
    intro n
    induction n with
    | zero =>
      intro text fuel2 st st2 hlen _ hrun
      obtain rfl : text = [] := List.eq_nil_of_length_eq_zero (by omega)
      rw [parse_and_type.eq_1] at hrun ⊢
      exact hrun
    | succ n ihn =>
      intro text fuel2 st st2 hlen hf hrun
      cases text with
      | nil =>
        rw [parse_and_type.eq_1] at hrun ⊢
        exact hrun
      | cons c rest =>
        rw [parse_and_type.eq_2] at hrun ⊢
        by_cases hc : st.cancelled = true
        · rw [if_pos hc] at hrun ⊢
          exact hrun
        · rw [if_neg hc] at hrun ⊢
          by_cases hc1 : (pollF2 o st).cancelled = true
          · rw [if_pos hc1] at hrun ⊢
            exact hrun
          · rw [if_neg hc1] at hrun ⊢
            by_cases h : 0 < (parse_special_token table (c :: rest) TokenAction.zero).1
            · rw [dif_pos h] at hrun ⊢
              by_cases hx :
                  (parse_special_token table (c :: rest) TokenAction.zero).2.useExpand = true
              · rw [if_pos hx] at hrun ⊢
                rcases Nat.eq_zero_or_pos fuel with rfl | hfp
                · rw [dif_pos rfl] at hrun
                  exact absurd hrun (by simp)
                · rw [dif_neg (by omega)] at hrun
                  rw [dif_neg (by omega : ¬fuel2 = 0)]
                  rcases hin : parse_and_type o mc table (fuel - 1)
                      (parse_special_token table (c :: rest) TokenAction.zero).2.expandBuf
                      (pollF2 o st) with _ | stM
                  · rw [hin] at hrun
                    exact absurd hrun (by simp)
                  · rw [hin, Option.some_bind] at hrun
                    have hin2 := ihf (fuel - 1) (by omega) _ _ (fuel2 - 1) _ _
                      le_rfl (by omega) hin
                    rw [hin2, Option.some_bind]
                    have hdl : ((c :: rest).drop
                        (parse_special_token table (c :: rest) TokenAction.zero).1).length
                          ≤ n := by
                      simp only [List.length_drop, List.length_cons] at hlen ⊢
                      omega
                    exact ihn _ fuel2 stM st2 hdl hf hrun
              · rw [if_neg hx] at hrun ⊢
                have hdl : ((c :: rest).drop
                    (parse_special_token table (c :: rest) TokenAction.zero).1).length
                      ≤ n := by
                  simp only [List.length_drop, List.length_cons] at hlen ⊢
                  omega
                exact ihn _ fuel2 _ st2 hdl hf hrun
            · rw [dif_neg h] at hrun ⊢
              have hdl : rest.length ≤ n := by
                simp only [List.length_cons] at hlen
                omega
              exact ihn _ fuel2 _ st2 hdl hf hrun

theorem splices_cons_pos {table : List (List Char)} {c : Char} {rest : List Char}
    (h : 0 < (parse_special_token table (c :: rest) TokenAction.zero).1) :
    splices table (c :: rest)
      = (if (parse_special_token table (c :: rest) TokenAction.zero).2.useExpand then
            [(parse_special_token table (c :: rest) TokenAction.zero).2.expandBuf]
          else [])
        ++ splices table
            ((c :: rest).drop (parse_special_token table (c :: rest) TokenAction.zero).1) := by
  rw [splices]
  rw [if_pos h]

theorem splices_cons_zero {table : List (List Char)} {c : Char} {rest : List Char}
    (h : ¬0 < (parse_special_token table (c :: rest) TokenAction.zero).1) :
    splices table (c :: rest) = splices table rest := by
  rw [splices]
  rw [if_neg h]

theorem parse_and_type_terminates (o : Nat → Bool) (mc : Char → Option Nat)
    (table : List (List Char)) :
    ∀ (s : List Char), Acc (SpliceStep table) s →
      ∀ st : SimState, ∃ fuel st2, parse_and_type o mc table fuel s st = some st2 := by
  intro s hacc
  induction hacc with
  | intro s hpred ih =>
    have main : ∀ (n : Nat) (u : List Char), u.length ≤ n →
        (∀ t, t ∈ splices table u → ∀ st : SimState, ∃ fuel st2,
          parse_and_type o mc table fuel t st = some st2) →
        ∀ st : SimState, ∃ fuel st2, parse_and_type o mc table fuel u st = some st2 := by
      intro n
      induction n with
      | zero =>
        intro u hlen _ st
        obtain rfl : u = [] := List.eq_nil_of_length_eq_zero (by omega)
        exact ⟨0, st, by rw [parse_and_type.eq_1]⟩
      | succ n ihn =>
        intro u hlen hsp st
        cases u with
        | nil => exact ⟨0, st, by rw [parse_and_type.eq_1]⟩
        | cons c rest =>
          by_cases hc : st.cancelled = true
          · exact ⟨0, st, by rw [parse_and_type.eq_2, if_pos hc]⟩
          · by_cases hc1 : (pollF2 o st).cancelled = true
            · exact ⟨0, pollF2 o st, by rw [parse_and_type.eq_2, if_neg hc, if_pos hc1]⟩
            · by_cases h : 0 < (parse_special_token table (c :: rest) TokenAction.zero).1
              · have hdl : ((c :: rest).drop
                    (parse_special_token table (c :: rest) TokenAction.zero).1).length
                      ≤ n := by
                  simp only [List.length_drop, List.length_cons] at hlen ⊢
                  omega
                have hsubd : ∀ t, t ∈ splices table
                    ((c :: rest).drop
                      (parse_special_token table (c :: rest) TokenAction.zero).1) →
                    ∀ st : SimState, ∃ fuel st2,
                      parse_and_type o mc table fuel t st = some st2 := by
                  intro t ht
                  refine hsp t ?_
                  rw [splices_cons_pos h]
                  exact List.mem_append_right _ ht
                by_cases hx :
                    (parse_special_token table (c :: rest) TokenAction.zero).2.useExpand
                      = true
                · have hmem : (parse_special_token table (c :: rest)
                      TokenAction.zero).2.expandBuf ∈ splices table (c :: rest) := by
                    rw [splices_cons_pos h, if_pos hx]
                    simp
                  obtain ⟨f1, stM, hM⟩ := hsp _ hmem (pollF2 o st)
                  obtain ⟨f2, st2, h2⟩ := ihn _ hdl hsubd stM
                  refine ⟨max f1 f2 + 1, st2, ?_⟩
                  rw [parse_and_type.eq_2, if_neg hc, if_neg hc1, dif_pos h, if_pos hx,
                    dif_neg (by omega : ¬max f1 f2 + 1 = 0)]
                  have hM2 := parse_and_type_mono o mc table f1 _ _ (max f1 f2 + 1 - 1)
                    _ _ le_rfl (by omega) hM
                  rw [hM2, Option.some_bind]
                  exact parse_and_type_mono o mc table f2 _ _ (max f1 f2 + 1)
                    _ _ le_rfl (by omega) h2
                · obtain ⟨f2, st2, h2⟩ := ihn _ hdl hsubd
                    (if 0 < (parse_special_token table (c :: rest)
                        TokenAction.zero).2.holdMs then
                      doHold o (parse_special_token table (c :: rest) TokenAction.zero).2.sym
                        (parse_special_token table (c :: rest) TokenAction.zero).2.holdMs
                        (pollF2 o st)
                    else
                      pressKey (parse_special_token table (c :: rest) TokenAction.zero).2.sym
                        (pollF2 o st))
                  refine ⟨f2, st2, ?_⟩
                  rw [parse_and_type.eq_2, if_neg hc, if_neg hc1, dif_pos h, if_neg hx]
                  exact h2
              · have hdl : rest.length ≤ n := by
                  simp only [List.length_cons] at hlen
                  omega
                have hsubd : ∀ t, t ∈ splices table rest → ∀ st : SimState,
                    ∃ fuel st2, parse_and_type o mc table fuel t st = some st2 := by
                  intro t ht
                  refine hsp t ?_
                  rw [splices_cons_zero h]
                  exact ht
                obtain ⟨f2, st2, h2⟩ := ihn _ hdl hsubd
                  (emit (Ev.wait 30) (send_char mc c (emit (Ev.char c) (pollF2 o st))))
                refine ⟨f2, st2, ?_⟩
                rw [parse_and_type.eq_2, if_neg hc, if_neg hc1, dif_neg h]
                exact h2
    exact main s.length s le_rfl (fun t ht => ih t ht)

theorem parse_and_type_self_diverges :
    ∀ (mc : Char → Option Nat) (fuel : Nat) (st : SimState), st.cancelled = false →
      parse_and_type noCancel mc [selfMsg] fuel selfMsg st = none := by
  intro mc fuel
  have hp : parse_special_token [selfMsg] selfMsg TokenAction.zero
      = (10, { sym := 0, holdMs := 0, expandBuf := selfMsg, useExpand := true }) := by
    decide
  simp only [selfMsg] at hp
  induction fuel with
  | zero =>
    intro st hst
    simp only [selfMsg]
    rw [parse_and_type.eq_2, if_neg (by simp [hst]),
      if_neg (by simp [pollF2, noCancel, hst])]
    simp only [hp]
    simp
  | succ f ih =>
    intro st hst
    simp only [selfMsg] at ih ⊢
    rw [parse_and_type.eq_2, if_neg (by simp [hst]),
      if_neg (by simp [pollF2, noCancel, hst])]
    simp only [hp]
    have hrec := ih (pollF2 noCancel st) (by simp [pollF2, noCancel, hst])
    simp [hrec]

/-- Claim C8: the interpreter recurses into spliced message text
unconditionally.  (1) Whenever the splice-step relation is well-founded
below the script — no table entry directly or transitively splices
itself into the walk — some finite nesting depth suffices: the run
terminates with a result for every oracle, mapper and start state.
(2) For the table whose entry 1 is the token `\x7bmessage1\x7d` itself, no
depth bound suffices: the uncancelled run exceeds every fuel, the fuel
model of the C source's unbounded recursion. -/
theorem c8_splice_recursion :
    (∀ (o : Nat → Bool) (mc : Char → Option Nat) (table : List (List Char))
        (s : List Char) (st : SimState),
        Acc (SpliceStep table) s →
        ∃ fuel st2, parse_and_type o mc table fuel s st = some st2) ∧
      ∀ (mc : Char → Option Nat) (fuel : Nat) (st : SimState),
        st.cancelled = false →
        parse_and_type noCancel mc [selfMsg] fuel selfMsg st = none := by
  constructor
  · intro o mc table s st hacc
    exact parse_and_type_terminates o mc table s hacc st
  · exact parse_and_type_self_diverges

/-- Claim C8 witness: the single-character script `a` over the empty
table is accessible (it splices nothing) and its run terminates, while
the self-referential `\x7bmessage1\x7d` run returns `none` already at
fuel 0. -/
theorem c8_splice_recursion_witness :
    (∃ fuel st2, parse_and_type noCancel (fun _ => none) [] fuel ['a'] ⟨false, 0, []⟩
        = some st2) ∧
      parse_and_type noCancel (fun _ => none) [selfMsg] 0 selfMsg ⟨false, 0, []⟩ = none := by
  constructor
  · refine c8_splice_recursion.1 noCancel (fun _ => none) [] ['a'] ⟨false, 0, []⟩ ?_
    constructor
    intro t ht
    have hp : parse_special_token [] ['a'] TokenAction.zero = (0, TokenAction.zero) := by
      decide
    have h1 : splices [] ['a'] = [] := by
      rw [splices_cons_zero (by rw [hp]; simp)]
      rw [splices]
    rw [SpliceStep, h1] at ht
    exact absurd ht (by simp)
  · exact c8_splice_recursion.2 (fun _ => none) 0 ⟨false, 0, []⟩ rfl

end XTestSim
